import Mathlib

set_option maxRecDepth 10000

/-! Shallow embedding of `src/pi_monte_carlo.cu`, the CUDA Monte-Carlo π
estimator. Machine `unsigned long long` values are embedded as natural
numbers reduced modulo `2 ^ 64` at every operation the C code performs on
64-bit quantities; the `float` coordinates drawn by `curand_uniform` are
idealised as rationals. -/

/-- The block size, `#define THREADS_PER_BLOCK 256`. -/
def threadsPerBlock : ℕ := 256

/-- The modulus of `unsigned long long` (64-bit) arithmetic. -/
def U64 : ℕ := 2 ^ 64

lemma U64_pos : 0 < U64 := by norm_num [U64]

/-- The inclusion predicate of `estimate_pi_kernel` (line 45):
`x * x + y * y <= 1.0f`, coordinates idealised as rationals. -/
def sampleHit (p : ℚ × ℚ) : Bool := decide (p.1 * p.1 + p.2 * p.2 ≤ 1)

/-- A coordinate pair lying in the half-open unit square `[0,1) × [0,1)`,
the range the spec ascribes to the per-draw uniform variates. -/
def inUnitSquare (p : ℚ × ℚ) : Prop := 0 ≤ p.1 ∧ p.1 < 1 ∧ 0 ≤ p.2 ∧ p.2 < 1

/-- The sampling loop of `estimate_pi_kernel` (lines 39-48): `local_count`
starts at 0 and, for each of the `N` draws of the thread's private stream,
is incremented exactly when the drawn pair satisfies the inclusion
predicate. `draws i` is the pair produced by the `i`-th loop iteration. -/
def localCount (draws : ℕ → ℚ × ℚ) : ℕ → ℕ
  | 0 => 0
  | n + 1 => localCount draws n + (if sampleHit (draws n) then 1 else 0)

/-- One stride of the shared-memory reduction (lines 55-60): each thread
`tid < s` performs `shared_counts[tid] += shared_counts[tid + s]` in
unsigned 64-bit arithmetic; every other slot is unchanged. The
`__syncthreads()` barrier between strides means all reads of a stride see
the previous stride's completed array, which the sequential map models. -/
def halveStep (s : ℕ) (f : ℕ → ℕ) : ℕ → ℕ :=
  fun i => if i < s then (f i + f (i + s)) % U64 else f i

/-- The reduction loop `for (s = blockDim.x / 2; s > 0; s >>= 1)` for a
block of `2 ^ k` threads: strides `2 ^ (k-1), ..., 2, 1` in order. -/
def reduceTree : ℕ → (ℕ → ℕ) → ℕ → ℕ
  | 0, f => f
  | k + 1, f => reduceTree k (halveStep (2 ^ k) f)

/-- Per-thread samples, line 91:
`samples_per_thread = (total_samples + total_threads - 1) / total_threads`,
computed in unsigned 64-bit arithmetic (`T` the requested total, `W` the
total thread count). -/
def samplesPerThread (T W : ℕ) : ℕ := ((T + W - 1) % U64) / W

/-- Actual total, line 92:
`actual_total_samples = samples_per_thread * total_threads` in unsigned
64-bit arithmetic. -/
def actualTotalSamples (T W : ℕ) : ℕ := (samplesPerThread T W * W) % U64

/-- The spec's own ceiling `ceil(T / W)`, written from the spec's words for
comparison with the code's computation. -/
def ceilDivSpec (T W : ℕ) : ℕ := T / W + if T % W = 0 then 0 else 1

/-- Per-thread local counts of block `b`: thread `t` has global id
`b * 256 + t` (line 28) and samples its own stream, so the shared array
after line 51 holds `localCount` of stream `b * 256 + t` at slot `t`. -/
def blockCounts (draws : ℕ → ℕ → ℚ × ℚ) (N b : ℕ) : ℕ → ℕ :=
  fun t => localCount (draws (b * threadsPerBlock + t)) N

/-- The value stored in `block_results[b]` (line 64): slot 0 of the shared
array after the full tree reduction over the block's `256 = 2 ^ 8`
per-thread counts. -/
def blockResult (draws : ℕ → ℕ → ℚ × ℚ) (N b : ℕ) : ℕ :=
  reduceTree 8 (blockCounts draws N b) 0

/-- The host accumulation loop (lines 124-127):
`total_in_circle += h_block_results[i]` over all blocks, in unsigned
64-bit arithmetic. -/
def hostTotal (res : ℕ → ℕ) : ℕ → ℕ
  | 0 => 0
  | b + 1 => (hostTotal res b + res b) % U64

/-- The grand total `total_in_circle` of a run with `B` blocks, each thread
drawing `N` samples. -/
def totalHits (draws : ℕ → ℕ → ℚ × ℚ) (N B : ℕ) : ℕ :=
  hostTotal (blockResult draws N) B

/-- The write guard of lines 62-65: thread `(blockId, tid)` writes
`block_results[slot]` exactly when `tid == 0` holds and `slot` is its own
block index. -/
def writesSlot (blockId tid slot : ℕ) : Bool := tid == 0 && slot == blockId

/- Reduction lemmas. -/

lemma halveStep_lt (s : ℕ) (f : ℕ → ℕ) (i : ℕ) (hi : i < s) : halveStep s f i < U64 := by
  simp only [halveStep, if_pos hi]
  exact Nat.mod_lt _ U64_pos

lemma sum_range_shift (f : ℕ → ℕ) (m : ℕ) :
    ∀ n, ∑ i ∈ Finset.range (m + n), f i =
      (∑ i ∈ Finset.range m, f i) + ∑ i ∈ Finset.range n, f (m + i) := by
  intro n
  induction n with
  | zero => simp
  | succ n ih =>
    have hmn : m + (n + 1) = (m + n) + 1 := by omega
    rw [hmn, Finset.sum_range_succ, ih, Finset.sum_range_succ, Nat.add_assoc]

lemma reduceTree_zero_eq :
    ∀ (k : ℕ) (f : ℕ → ℕ), (∀ i < 2 ^ k, f i < U64) →
      reduceTree k f 0 = (∑ i ∈ Finset.range (2 ^ k), f i) % U64 := by
  intro k
  induction k with
  | zero =>
    intro f hf
    have h0 : f 0 < U64 := hf 0 (by norm_num)
    simp [reduceTree, Nat.mod_eq_of_lt h0]
  | succ k ih =>
    intro f hf
    have hstep : ∀ i < 2 ^ k, halveStep (2 ^ k) f i < U64 := fun i hi => halveStep_lt _ f i hi
    have h1 : reduceTree (k + 1) f 0 = reduceTree k (halveStep (2 ^ k) f) 0 := rfl
    rw [h1, ih (halveStep (2 ^ k) f) hstep]
    have h2 : ∀ i ∈ Finset.range (2 ^ k),
        halveStep (2 ^ k) f i = (f i + f (i + 2 ^ k)) % U64 := by
      intro i hi
      simp only [halveStep, if_pos (Finset.mem_range.mp hi)]
    rw [Finset.sum_congr rfl h2, ← Finset.sum_nat_mod]
    congr 1
    have h3 : (2 : ℕ) ^ (k + 1) = 2 ^ k + 2 ^ k := by ring
    rw [h3, sum_range_shift, Finset.sum_add_distrib]
    congr 1
    exact Finset.sum_congr rfl (fun i _ => by rw [Nat.add_comm])

/- Plan-arithmetic lemmas. -/

lemma pred_div_eq_ceil (T W : ℕ) (hW : 1 ≤ W) :
    (T + W - 1) / W = ceilDivSpec T W := by
  have hmod := Nat.div_add_mod T W
  have hlt : T % W < W := Nat.mod_lt T hW
  by_cases h0 : T % W = 0
  · have hTW : T + W - 1 = W * (T / W) + (W - 1) := by omega
    rw [hTW, Nat.mul_add_div hW, Nat.div_eq_of_lt (show W - 1 < W by omega)]
    simp [ceilDivSpec, h0]
  · have hx : W * (T / W + 1) = W * (T / W) + W := by ring
    have hTW : T + W - 1 = W * (T / W + 1) + (T % W - 1) := by omega
    rw [hTW, Nat.mul_add_div hW, Nat.div_eq_of_lt (show T % W - 1 < W by omega)]
    simp [ceilDivSpec, h0]

lemma ceilDivSpec_mul_bounds (T W : ℕ) (hW : 1 ≤ W) :
    T ≤ ceilDivSpec T W * W ∧ ceilDivSpec T W * W ≤ T + W - 1 := by
  have hmod := Nat.div_add_mod T W
  have hlt : T % W < W := Nat.mod_lt T hW
  by_cases h0 : T % W = 0
  · have h1 : ceilDivSpec T W = T / W := by simp [ceilDivSpec, h0]
    have h2 : T / W * W = W * (T / W) := by ring
    rw [h1, h2]
    omega
  · have h1 : ceilDivSpec T W = T / W + 1 := by simp [ceilDivSpec, h0]
    have h2 : (T / W + 1) * W = W * (T / W) + W := by ring
    rw [h1, h2]
    omega

/- Counting lemmas for the sampler. -/

lemma localCount_le (d : ℕ → ℚ × ℚ) (N : ℕ) : localCount d N ≤ N := by
  induction N with
  | zero => simp [localCount]
  | succ n ih =>
    simp only [localCount]
    split <;> omega

lemma localCount_eq_card (d : ℕ → ℚ × ℚ) (N : ℕ) :
    localCount d N = ((Finset.range N).filter (fun i => sampleHit (d i) = true)).card := by
  induction N with
  | zero => simp [localCount]
  | succ n ih =>
    rw [Finset.range_succ, Finset.filter_insert]
    by_cases hs : sampleHit (d n) = true
    · rw [if_pos hs, Finset.card_insert_of_not_mem (by simp)]
      simp [localCount, ih, hs]
    · rw [if_neg hs]
      simp only [localCount, ih]
      simp [hs]

/- Bounds for the whole pipeline. -/

lemma hostTotal_le (res : ℕ → ℕ) (c : ℕ) :
    ∀ B, (∀ i < B, res i ≤ c) → hostTotal res B ≤ B * c := by
  intro B
  induction B with
  | zero => intro _; simp [hostTotal]
  | succ b ih =>
    intro h
    have h1 : hostTotal res b ≤ b * c := ih (fun i hi => h i (by omega))
    have h2 : res b ≤ c := h b (by omega)
    calc hostTotal res (b + 1) = (hostTotal res b + res b) % U64 := rfl
      _ ≤ hostTotal res b + res b := Nat.mod_le _ _
      _ ≤ b * c + c := by omega
      _ = (b + 1) * c := by ring

lemma hostTotal_zero (res : ℕ → ℕ) (h : ∀ i, res i = 0) : ∀ B, hostTotal res B = 0 := by
  intro B
  induction B with
  | zero => rfl
  | succ b ih => simp [hostTotal, ih, h b]

lemma blockResult_le (draws : ℕ → ℕ → ℚ × ℚ) (N b : ℕ) (hN : N < U64) :
    blockResult draws N b ≤ 256 * N := by
  have hf : ∀ t < 2 ^ 8, blockCounts draws N b t < U64 := fun t _ =>
    lt_of_le_of_lt (localCount_le _ _) hN
  unfold blockResult
  rw [reduceTree_zero_eq 8 _ hf]
  calc (∑ t ∈ Finset.range (2 ^ 8), blockCounts draws N b t) % U64
      ≤ ∑ t ∈ Finset.range (2 ^ 8), blockCounts draws N b t := Nat.mod_le _ _
    _ ≤ ∑ _t ∈ Finset.range (2 ^ 8), N := Finset.sum_le_sum (fun t _ => localCount_le _ _)
    _ = 256 * N := by simp [Finset.sum_const, Finset.card_range]

lemma blockResult_of_zero_samples (draws : ℕ → ℕ → ℚ × ℚ) (b : ℕ) :
    blockResult draws 0 b = 0 := by
  have hf : ∀ t < 2 ^ 8, blockCounts draws 0 b t < U64 := by
    intro t _
    simpa [blockCounts, localCount] using U64_pos
  unfold blockResult
  rw [reduceTree_zero_eq 8 _ hf]
  simp [blockCounts, localCount]

lemma totalHits_le (draws : ℕ → ℕ → ℚ × ℚ) (N B : ℕ) (h : N * (B * 256) < U64) :
    totalHits draws N B ≤ N * (B * 256) := by
  rcases Nat.eq_zero_or_pos B with hB | hB
  · subst hB
    exact Nat.zero_le _
  · have hN : N < U64 := by
      have h1 : N * 1 ≤ N * (B * 256) := Nat.mul_le_mul_left N (by omega)
      omega
    have hres : ∀ i < B, blockResult draws N i ≤ 256 * N := fun i _ =>
      blockResult_le draws N i hN
    calc totalHits draws N B ≤ B * (256 * N) := hostTotal_le _ _ B hres
      _ = N * (B * 256) := by ring

/- Command-line handling (main, lines 69-77). -/

/-- Failure modes of the standard-library conversion. -/
inductive StoullError where
  | invalidArgument
  | outOfRange
deriving DecidableEq

/-- Whitespace in the C locale, as skipped by the conversion. -/
def isSpaceChar (c : Char) : Bool := c = ' ' || (9 ≤ c.toNat && c.toNat ≤ 13)

/-- Decimal digit test. -/
def isDigitChar (c : Char) : Bool := '0' ≤ c && c ≤ '9'

/-- Numeric value of a run of decimal digits. -/
def digitsToNat (ds : List Char) : ℕ := ds.foldl (fun a c => a * 10 + (c.toNat - 48)) 0

/-- Modelled from the spec: the conversion `std::stoull` (C++ standard
library, not part of this repository's sources) applied to the sample-count
argument, "an unsigned integer total sample count; a non-numeric argument
causes immediate termination with a diagnostic message". Per its documented
semantics it skips leading whitespace and an optional sign, converts the
maximal run of decimal digits, signals invalid-argument when no digit is
found, and signals out-of-range when the converted value exceeds the
unsigned 64-bit maximum (a leading minus sign wraps the value modulo
`2 ^ 64`). -/
def stoull (s : String) : Except StoullError ℕ :=
  let cs := (s.data.dropWhile isSpaceChar)
  let sign : Bool × List Char :=
    match cs with
    | '-' :: r => (true, r)
    | '+' :: r => (false, r)
    | r => (false, r)
  let ds := sign.2.takeWhile isDigitChar
  if ds.isEmpty then .error .invalidArgument
  else
    let v := digitsToNat ds
    if U64 ≤ v then .error .outOfRange
    else .ok (if sign.1 then (U64 - v) % U64 else v)

/-- Outcomes of `main`'s argument phase. -/
inductive MainOutcome where
  | run (totalSamples : ℕ)
  | exitCode (c : ℕ)
  | uncaughtException
deriving DecidableEq

/-- Argument handling of `main` (lines 69-77): with no argument the total
defaults to `2 ^ 30`; otherwise `std::stoull` is tried on the first
argument, and only `std::invalid_argument` is caught (diagnostic printed,
`return 1`); any other exception — in particular `std::out_of_range` —
escapes `main`. All device setup and the kernel dispatch happen only on
the `run` outcome. -/
def mainOutcome (args : List String) : MainOutcome :=
  match args with
  | [] => .run (2 ^ 30)
  | a :: _ =>
    match stoull a with
    | .ok v => .run v
    | .error .invalidArgument => .exitCode 1
    | .error .outOfRange => .uncaughtException

/-- Whether an outcome reaches the device/kernel dispatch. -/
def dispatches : MainOutcome → Bool
  | .run _ => true
  | _ => false

/- Claim theorems. -/

/-- C1: the halving tree reduction leaves slot 0 holding the exact sum of
the per-worker counts whenever that sum fits in 64 bits (as corrected: the
slots are `unsigned long long`, so for arbitrary counts the result is the
sum modulo `2 ^ 64`); in particular a 256-thread block with counts
`i mod 4` reduces to 384. -/
theorem c1_tree_reduction :
    (∀ (k : ℕ) (h : ℕ → ℕ), (∑ i ∈ Finset.range (2 ^ k), h i) < U64 →
        reduceTree k h 0 = ∑ i ∈ Finset.range (2 ^ k), h i) ∧
      reduceTree 8 (fun i => i % 4) 0 = 384 := by
  constructor
  · intro k h hsum
    have hf : ∀ i < 2 ^ k, h i < U64 := fun i hi =>
      lt_of_le_of_lt
        (Finset.single_le_sum (fun i _ => Nat.zero_le (h i)) (Finset.mem_range.mpr hi)) hsum
    rw [reduceTree_zero_eq k h hf, Nat.mod_eq_of_lt hsum]
  · decide

/-- C1 counterexample: for the assignment giving both workers of a
two-worker group the 64-bit count `2 ^ 63`, the shared-memory reduction
leaves slot 0 holding 0, not the true sum `2 ^ 63 + 2 ^ 63 = 2 ^ 64`. -/
theorem c1_counterexample :
    reduceTree 1 (fun _ => 2 ^ 63) 0 ≠ 2 ^ 63 + 2 ^ 63 := by decide

/-- C2 (amended): for every requested total `T ≥ 1` and worker count
`W ≥ 1` such that the ceiling-division numerator `T + W - 1` does not
overflow 64 bits, the plan satisfies `samples_per_worker = ceil(T / W)`,
`actual_total_samples = ceil(T / W) × W`, and
`actual_total_samples ≥ T`. -/
theorem c2_plan (T W : ℕ) (hT : 1 ≤ T) (hW : 1 ≤ W) (hov : T + W - 1 < U64) :
    samplesPerThread T W = ceilDivSpec T W ∧
      actualTotalSamples T W = ceilDivSpec T W * W ∧
      T ≤ actualTotalSamples T W := by
  have h1 : samplesPerThread T W = ceilDivSpec T W := by
    unfold samplesPerThread
    rw [Nat.mod_eq_of_lt hov, pred_div_eq_ceil T W hW]
  have hb := ceilDivSpec_mul_bounds T W hW
  have h2 : actualTotalSamples T W = ceilDivSpec T W * W := by
    unfold actualTotalSamples
    rw [h1, Nat.mod_eq_of_lt (lt_of_le_of_lt hb.2 hov)]
  refine ⟨h1, h2, ?_⟩
  rw [h2]
  exact hb.1

/-- C2 witness: the plan equations at the concrete request of one million
samples on 32 blocks of 256 threads. -/
theorem c2_plan_witness :
    samplesPerThread 1000000 8192 = ceilDivSpec 1000000 8192 ∧
      actualTotalSamples 1000000 8192 = ceilDivSpec 1000000 8192 * 8192 ∧
      1000000 ≤ actualTotalSamples 1000000 8192 :=
  c2_plan 1000000 8192 (by norm_num) (by norm_num) (by norm_num [U64])

/-- C2 counterexample: at the representable request `T = 2 ^ 64 - 1` with
`W = 8192` workers, the unsigned 64-bit numerator wraps, so the computed
`samples_per_worker` is not `ceil(T / W)` and the plan undercounts the
request (the computed actual total is 0). -/
theorem c2_counterexample :
    samplesPerThread (2 ^ 64 - 1) 8192 ≠ ceilDivSpec (2 ^ 64 - 1) 8192 ∧
      actualTotalSamples (2 ^ 64 - 1) 8192 < 2 ^ 64 - 1 := by decide

/-- C3: every local count is at most the per-worker sample count, and in
every run (any draw streams, any requested total `T`, any block count `B`,
with the per-thread count the plan derives) the grand total obtained from
the block reductions and the host sum is at most `actual_total_samples`;
being a natural number it is also at least 0. -/
theorem c3_hits_bound :
    (∀ (d : ℕ → ℚ × ℚ) (N : ℕ), localCount d N ≤ N) ∧
      ∀ (draws : ℕ → ℕ → ℚ × ℚ) (T B : ℕ),
        totalHits draws (samplesPerThread T (B * 256)) B ≤
          actualTotalSamples T (B * 256) := by
  refine ⟨localCount_le, ?_⟩
  intro draws T B
  have hx : samplesPerThread T (B * 256) * (B * 256) ≤ (T + B * 256 - 1) % U64 :=
    Nat.div_mul_le_self _ _
  have hlt : (T + B * 256 - 1) % U64 < U64 := Nat.mod_lt _ U64_pos
  have hNW : samplesPerThread T (B * 256) * (B * 256) < U64 := lt_of_le_of_lt hx hlt
  have hact : actualTotalSamples T (B * 256) =
      samplesPerThread T (B * 256) * (B * 256) := by
    unfold actualTotalSamples
    exact Nat.mod_eq_of_lt hNW
  rw [hact]
  exact totalHits_le draws _ B hNW

/-- C4: for a worker with a fixed sample count `N` whose draws all lie in
the half-open unit square, the local hit count equals exactly the number of
the `N` drawn pairs satisfying the inclusion predicate. -/
theorem c4_sampler_exact (draws : ℕ → ℚ × ℚ) (N : ℕ)
    (hrange : ∀ i < N, inUnitSquare (draws i)) :
    localCount draws N =
      ((Finset.range N).filter (fun i => sampleHit (draws i) = true)).card :=
  localCount_eq_card draws N

/-- C4 witness: the count at the concrete stream constantly `(1/2, 1/2)`
with two draws. -/
theorem c4_sampler_witness :
    localCount (fun _ => ((1 : ℚ)/2, 1/2)) 2 =
      ((Finset.range 2).filter
        (fun i => sampleHit ((fun _ => ((1 : ℚ)/2, 1/2)) i) = true)).card :=
  c4_sampler_exact (fun _ => ((1 : ℚ)/2, 1/2)) 2
    (fun _ _ => ⟨by norm_num, by norm_num, by norm_num, by norm_num⟩)

/-- C5: a pair is classified as a hit exactly when `x² + y² ≤ 1`, and a
boundary point with `x² + y²` exactly 1, such as `(3/5, 4/5)`, counts as
inside and increments the hit count. -/
theorem c5_inclusion_tie :
    (∀ p : ℚ × ℚ, sampleHit p = true ↔ p.1 * p.1 + p.2 * p.2 ≤ 1) ∧
      ((3 : ℚ)/5) * ((3 : ℚ)/5) + ((4 : ℚ)/5) * ((4 : ℚ)/5) = 1 ∧
      sampleHit ((3 : ℚ)/5, 4/5) = true ∧
      localCount (fun _ => ((3 : ℚ)/5, 4/5)) 1 = 1 := by
  refine ⟨?_, ?_, ?_, ?_⟩
  · intro p
    simp [sampleHit]
  · norm_num
  · norm_num [sampleHit]
  · norm_num [localCount, sampleHit]

/-- C6: in a grid of `B` blocks of 256 threads, the set of workers whose
guarded write targets the partial-result slot `b` is exactly the singleton
holding the designated worker `(b, 0)`: the slot is written exactly once,
only by local index 0 of group `b` (and, by `blockResult`'s definition,
with the value of the completed reduction). -/
theorem c6_single_writer (B b : ℕ) (hb : b < B) :
    Finset.filter (fun p => writesSlot p.1 p.2 b = true)
        (Finset.range B ×ˢ Finset.range threadsPerBlock) = {(b, 0)} := by
  ext p
  obtain ⟨x, y⟩ := p
  simp only [Finset.mem_filter, Finset.mem_product, Finset.mem_range, Finset.mem_singleton,
    writesSlot, Bool.and_eq_true, beq_iff_eq, Prod.mk.injEq]
  constructor
  · rintro ⟨⟨hx, hy⟩, h0, hbx⟩
    exact ⟨hbx.symm, h0⟩
  · rintro ⟨hx, hy⟩
    subst hx
    subst hy
    exact ⟨⟨hb, by norm_num [threadsPerBlock]⟩, rfl, rfl⟩

/-- C6 witness: the writer set of slot 2 in a four-block grid. -/
theorem c6_single_writer_witness :
    Finset.filter (fun p => writesSlot p.1 p.2 2 = true)
        (Finset.range 4 ×ˢ Finset.range threadsPerBlock) = {(2, 0)} :=
  c6_single_writer 4 2 (by norm_num)

/-- C7: evaluation of the code at the failing input — a requested total of
0 (a representable command-line argument) makes the plan compute
`samples_per_thread = 0` and `actual_total_samples = 0`, and `main`
nevertheless forms `pi_estimate = 4.0 * total / actual` unconditionally,
so the divisor of the estimate is zero: the code has no guard and no
explicit undefined-result path. -/
theorem c7_zero_divisor :
    samplesPerThread 0 8192 = 0 ∧ actualTotalSamples 0 8192 = 0 := by decide

/-- C8 counterexample: a request strictly smaller than the worker count
does not give `samples_per_worker = 0`: with `T = 1 < W = 8192` the
ceiling division yields 1. -/
theorem c8_counterexample :
    1 < 8192 ∧ samplesPerThread 1 8192 = 1 := by decide

/-- C8 (amended): `samples_per_worker = 0` occurs exactly for a requested
total of 0 (for any `1 ≤ T` without 64-bit overflow the ceiling division
gives at least 1), and a run with zero samples per worker is still
well-defined, with every worker contributing a local count of 0 and a
grand total of 0. -/
theorem c8_zero_samples :
    (∀ W, 1 ≤ W → W < U64 → samplesPerThread 0 W = 0) ∧
      (∀ T W, 1 ≤ T → 1 ≤ W → T + W - 1 < U64 → 1 ≤ samplesPerThread T W) ∧
      ∀ (draws : ℕ → ℕ → ℚ × ℚ) (B : ℕ), totalHits draws 0 B = 0 := by
  refine ⟨?_, ?_, ?_⟩
  · intro W hW hWU
    unfold samplesPerThread
    have h1 : 0 + W - 1 = W - 1 := by omega
    rw [h1, Nat.mod_eq_of_lt (by omega), Nat.div_eq_of_lt (by omega)]
  · intro T W hT hW hov
    unfold samplesPerThread
    rw [Nat.mod_eq_of_lt hov, Nat.one_le_div_iff hW]
    omega
  · intro draws B
    unfold totalHits
    exact hostTotal_zero _ (fun i => blockResult_of_zero_samples draws i) B

/-- C9: the non-numeric argument "abc" makes `main` return exit status 1
from the `std::invalid_argument` handler without reaching the kernel
dispatch; the same holds for every argument on which the conversion
signals invalid-argument; and with no argument the total defaults to
`2 ^ 30`. -/
theorem c9_invalid_argument :
    mainOutcome ["abc"] = .exitCode 1 ∧
      dispatches (mainOutcome ["abc"]) = false ∧
      mainOutcome [] = .run (2 ^ 30) ∧
      ∀ s : String, stoull s = .error .invalidArgument →
        mainOutcome [s] = .exitCode 1 ∧ dispatches (mainOutcome [s]) = false := by
  refine ⟨rfl, rfl, rfl, ?_⟩
  intro s h
  simp [mainOutcome, h, dispatches]

/-- C10: a numeric argument whose value exceeds the unsigned 64-bit range,
such as `2 ^ 64` itself, makes the conversion signal out-of-range, which
the handler (covering only `std::invalid_argument`) does not catch: the
run ends as an uncaught exception, not via the diagnostic-and-exit-1
path. -/
theorem c10_out_of_range :
    mainOutcome ["18446744073709551616"] = .uncaughtException ∧
      MainOutcome.uncaughtException ≠ MainOutcome.exitCode 1 ∧
      ∀ s : String, stoull s = .error .outOfRange →
        mainOutcome [s] = .uncaughtException := by
  refine ⟨rfl, by decide, ?_⟩
  intro s h
  simp [mainOutcome, h]
